import Mathlib

/-!
Verification of the suffix-tree implementation in src/suffix_tree.py.

The program is embedded shallowly: Python ints are Int, Python lists are
Lean lists indexed with Python semantics (negative indices wrap around,
out-of-range raises IndexError), the edge dictionary is an association
list whose assignment replaces an existing key, and exceptions are an
explicit error type.  Loops carry an explicit fuel; exhausted fuel is a
distinguished outcome, separate from the Python exceptions.  Writes into
the suffix-link array are additionally recorded in an append-only log so
that write-once properties can be stated; the log has no influence on
the computation.
-/

namespace SuffixTreePy

/-- Outcomes of a Python run that does not return normally. -/
inductive PErr where
  | keyError
  | indexError
  | outOfFuel
deriving DecidableEq, Repr

/-- Python list/str index normalization: negative indices count from the
end, anything out of range is an IndexError (returned as none). -/
def pyIdx (len : Nat) (i : Int) : Option Nat :=
  if 0 ≤ i then
    if i < (len : Int) then some i.toNat else none
  else
    if 0 ≤ i + (len : Int) then some (i + (len : Int)).toNat else none

/-- Python-style read of a list element. -/
def pyGet (l : List α) (i : Int) : Option α :=
  (pyIdx l.length i).bind fun j => l[j]?

/-- Python-style write of a list element (lists keep their length). -/
def pySet (l : List Int) (i v : Int) : Option (List Int) :=
  (pyIdx l.length i).map fun j => l.set j v

/-- An entry of the edge dictionary: the value of E[(node, char)] is the
tuple (first, last, end), meaning the edge has characters T[first:last+1]
and goes to node end.  The field dest stands for the tuple slot named
end in the source. -/
structure EdgeRec where
  first : Int
  last : Int
  dest : Int
deriving DecidableEq, Repr

/-- A key of the edge dictionary. -/
abbrev EKey := Int × Char

/-- The edge dictionary, as an association list with unique keys. -/
abbrev ETab := List (EKey × EdgeRec)

/-- Dictionary lookup. -/
def elookup (E : ETab) (k : EKey) : Option EdgeRec :=
  (E.find? fun p => p.1 == k).map (·.2)

/-- Dictionary membership test, as in the expression (origin, c) in E. -/
def ehas (E : ETab) (k : EKey) : Bool :=
  (elookup E k).isSome

/-- Dictionary assignment E[k] = v: replaces the binding of k if present. -/
def eset (E : ETab) (k : EKey) (v : EdgeRec) : ETab :=
  (E.filter fun p => p.1 != k) ++ [(k, v)]

/-- One recorded write nodes[target] = value; site is the source line
(88, 95 or 113 in src/suffix_tree.py) that performed it. -/
structure LogEntry where
  site : Nat
  target : Int
  value : Int
deriving DecidableEq, Repr

/-- The persistent state of a SuffixTree object: the text T, the edge
dictionary E and the suffix-link array nodes, plus the write log. -/
structure SuffixTree where
  T : List Char
  E : ETab
  nodes : List Int
  log : List LogEntry
deriving DecidableEq, Repr

/-- The empty suffix tree produced by the constructor: empty text, no
edges, and the single root slot nodes = [-1]. -/
def SuffixTree.new : SuffixTree :=
  ⟨[], [], [-1], []⟩

/-- Reading T[i]; an out-of-range index is an IndexError. -/
def getT (T : List Char) (i : Int) : Except PErr Char :=
  match pyGet T i with
  | some c => .ok c
  | none => .error .indexError

/-- Reading E[k]; a missing key is a KeyError. -/
def lookupE (E : ETab) (k : EKey) : Except PErr EdgeRec :=
  match elookup E k with
  | some e => .ok e
  | none => .error .keyError

/-- Writing nodes[i] = v; an out-of-range index is an IndexError. -/
def pySetE (l : List Int) (i v : Int) : Except PErr (List Int) :=
  match pySet l i v with
  | some l' => .ok l'
  | none => .error .indexError

/-- Reading nodes[i]; an out-of-range index is an IndexError. -/
def pyGetE (l : List Int) (i : Int) : Except PErr Int :=
  match pyGet l i with
  | some v => .ok v
  | none => .error .indexError

/-- The canonization loop body (lines 102-110 and 115-123 of the source):
while span <= last - first, move first past the current edge and descend
to its destination; the edge record is refreshed only when first <= last
still holds, exactly as in the source. -/
def canonAux (T : List Char) (E : ETab) (last : Int) :
    Nat → Int → Int → EdgeRec → Except PErr (Int × Int)
  | 0, _, _, _ => .error .outOfFuel
  | fuel + 1, origin, first, e =>
    let span := e.last - e.first
    if span ≤ last - first then
      let first1 := first + span + 1
      let origin1 := e.dest
      if first1 ≤ last then do
        let c ← getT T first1
        let e1 ← lookupE E (origin1, c)
        canonAux T E last fuel origin1 first1 e1
      else
        canonAux T E last fuel origin1 first1 e
    else
      .ok (origin, first)

/-- The canonization step guarded by if first <= last. -/
def canonize (cf : Nat) (T : List Char) (E : ETab) (origin first last : Int) :
    Except PErr (Int × Int) :=
  if first ≤ last then do
    let c ← getT T first
    let e ← lookupE E (origin, c)
    canonAux T E last cf origin first e
  else
    .ok (origin, first)

/-- The variables mutated by the inner while-loop of add. -/
structure IterSt where
  E : ETab
  nodes : List Int
  log : List LogEntry
  origin : Int
  first : Int
  nc : Int
  lastParent : Int
deriving DecidableEq, Repr

/-- The head of one while-iteration (lines 75-91): either the loop breaks
(none), or a leaf is to be inserted under the returned parent node, with
the state updated by the possible edge split. -/
def iterHead (T : List Char) (last : Int) (c : Char) (s : IterSt) :
    Except PErr (Option (Int × ETab × List Int × List LogEntry × Int)) :=
  if s.first > last then
    if ehas s.E (s.origin, c) then .ok none
    else .ok (some (s.origin, s.E, s.nodes, s.log, s.nc))
  else do
    let tf ← getT T s.first
    let e ← lookupE s.E (s.origin, tf)
    let span := last - s.first
    let A := e.first + span
    let m ← getT T (A + 1)
    if m = c then .ok none
    else do
      let E1 := eset s.E (s.origin, tf) ⟨e.first, A, s.nc⟩
      let nodes1 ← pySetE s.nodes s.nc s.origin
      let log1 := s.log ++ [⟨88, s.nc, s.origin⟩]
      let E2 := eset E1 (s.nc, m) ⟨A + 1, e.last, e.dest⟩
      .ok (some (s.nc, E2, nodes1, log1, s.nc + 1))

/-- The guarded suffix-link write if last_parent_node > 0 (lines 94-95
and 112-113), recorded in the log under the given site. -/
def linkWrite (lp parent : Int) (nodes : List Int) (log : List LogEntry)
    (site : Nat) : Except PErr (List Int × List LogEntry) :=
  if lp > 0 then
    match pySetE nodes lp parent with
    | .ok n1 => .ok (n1, log ++ [⟨site, lp, parent⟩])
    | .error e => .error e
  else
    .ok (nodes, log)

/-- The fallback step (lines 97-100): from the root advance first,
otherwise follow the suffix link nodes[origin]. -/
def fallback (nodes : List Int) (origin first : Int) :
    Except PErr (Int × Int) :=
  if origin = 0 then
    .ok (origin, first + 1)
  else
    match pyGetE nodes origin with
    | .ok v => .ok (v, first)
    | .error e => .error e

/-- The tail of one while-iteration (lines 92-110): insert the new leaf
edge, perform the guarded suffix-link write, fall back and canonize. -/
def iterTail (cf : Nat) (T : List Char) (Lm1 lci last : Int) (c : Char)
    (lastParent0 origin0 first0 parent : Int)
    (E0 : ETab) (nodes0 : List Int) (log0 : List LogEntry) (nc0 : Int) :
    Except PErr IterSt := do
  let E1 := eset E0 (parent, c) ⟨lci, Lm1, nc0⟩
  let nc1 := nc0 + 1
  let nl ← linkWrite lastParent0 parent nodes0 log0 95
  let of1 ← fallback nl.1 origin0 first0
  let of2 ← canonize cf T E1 of1.1 of1.2 last
  pure ⟨E1, nl.1, nl.2, of2.1, of2.2, nc1, parent⟩

/-- The inner while 1 loop of add; returns the state at the break together
with the final value of parent_node. -/
def innerLoop (cf : Nat) (T : List Char) (Lm1 lci last : Int) (c : Char) :
    Nat → IterSt → Except PErr (IterSt × Int)
  | 0, _ => .error .outOfFuel
  | fuel + 1, s => do
    let r ← iterHead T last c s
    match r with
    | none => .ok (s, s.origin)
    | some (parent, E2, nodes1, log1, nc1) => do
      let s1 ← iterTail cf T Lm1 lci last c s.lastParent s.origin s.first
        parent E2 nodes1 log1 nc1
      innerLoop cf T Lm1 lci last c fuel s1

/-- Processing of one character (one pass of the for-loop, lines 72-123):
reset last_parent_node, run the while loop, perform the trailing guarded
suffix-link write, grow last, and canonize. -/
def charStep (ilf cf : Nat) (T : List Char) (Lm1 : Int) (lci : Int) (c : Char)
    (last : Int) (s : IterSt) : Except PErr (IterSt × Int) := do
  let r ← innerLoop cf T Lm1 lci last c ilf { s with lastParent := -1 }
  let s1 := r.1
  let parentF := r.2
  let nl ← linkWrite s1.lastParent parentF s1.nodes s1.log 113
  let last1 := last + 1
  let of2 ← canonize cf T s1.E s1.origin s1.first last1
  pure (⟨s1.E, nl.1, nl.2, of2.1, of2.2, s1.nc, s1.lastParent⟩, last1)

/-- The for-loop over the characters of the appended batch. -/
def charsLoop (ilf cf : Nat) (T : List Char) (Lm1 : Int) :
    List Nat → Int → IterSt → Except PErr IterSt
  | [], _, s => .ok s
  | lci :: rest, last, s => do
    let c ← getT T (lci : Int)
    let r ← charStep ilf cf T Lm1 lci c last s
    charsLoop ilf cf T Lm1 rest r.2 r.1

/-- One call of SuffixTree.add(s) at the given loop fuels. -/
def addCall (ilf cf : Nat) (t : SuffixTree) (s : List Char) :
    Except PErr SuffixTree := do
  let first : Int := t.T.length
  let last : Int := (t.T.length : Int) - 1
  let T := t.T ++ s
  let nc : Int := t.nodes.length
  let nodes := t.nodes ++ List.replicate (2 * s.length) (-1)
  let Lm1 : Int := (T.length : Int) - 1
  let idxs := List.range' t.T.length s.length
  let fin ← charsLoop ilf cf T Lm1 idxs last ⟨t.E, nodes, t.log, 0, first, nc, -1⟩
  pure ⟨T, fin.E, fin.nodes, fin.log⟩

/-- A fuel bound large enough for every run that terminates in Python. -/
def fuelFor (t : SuffixTree) (s : List Char) : Nat :=
  (t.T.length + s.length + t.nodes.length + 8) ^ 2

/-- SuffixTree.add: appends the batch and processes it. -/
def add (t : SuffixTree) (s : List Char) : Except PErr SuffixTree :=
  addCall (fuelFor t s) (fuelFor t s) t s

/-- A tree built from the empty tree by a sequence of add calls. -/
def addMany (bs : List (List Char)) : Except PErr SuffixTree :=
  bs.foldlM add SuffixTree.new

/-- SuffixTree.make_choices: one list per node slot, collecting the key
characters of the edge dictionary at the slot choices[origin] (Python
list indexing, so a negative origin wraps around to the end), each list
then sorted.  choiceStep is the body of the collecting loop. -/
def choiceStep (numNodes : Nat) (acc : List (List Char)) (p : EKey × EdgeRec) :
    Except PErr (List (List Char)) :=
  match pyIdx numNodes p.1.1 with
  | some j => .ok (acc.set j (((acc[j]?).getD []) ++ [p.1.2]))
  | none => .error .indexError

/-- SuffixTree.make_choices, assembled from the collecting loop and the
per-node sort. -/
def make_choices (E : ETab) (numNodes : Nat) : Except PErr (List (List Char)) := do
  let filled ← E.foldlM (choiceStep numNodes) (List.replicate numNodes ([] : List Char))
  pure (filled.map fun l => l.insertionSort (· ≤ ·))

/-- The recursion f of SuffixTree.count_substrings: sums, over the sorted
choices of the node other than the terminator, the edge length plus the
count of the destination. -/
def countSubstrAux (E : ETab) (choices : List (List Char)) (term : Char) :
    Nat → Int → Except PErr Int
  | 0, _ => .error .outOfFuel
  | fuel + 1, node => do
    let cs ←
      match pyIdx choices.length node with
      | some j => (.ok ((choices[j]?).getD []) : Except PErr (List Char))
      | none => .error .indexError
    cs.foldlM (fun t c =>
      if c = term then pure t
      else do
        let e ← lookupE E (node, c)
        let sub ← countSubstrAux E choices term fuel e.dest
        pure (t + (e.last - e.first + 1) + sub)) 0

/-- SuffixTree.count_substrings(term), returning the root's count. -/
def count_substrings (t : SuffixTree) (term : Char) : Except PErr Int := do
  let choices ← make_choices t.E t.nodes.length
  countSubstrAux t.E choices term (t.E.length + 2) 0

/-- The recursion f of SuffixTree.count_suffixes: a node with an empty
choice list counts 1; otherwise each terminator edge counts 1 and every
other edge contributes the count of its destination. -/
def countSufAux (E : ETab) (choices : List (List Char)) (term : Char) :
    Nat → Int → Except PErr Int
  | 0, _ => .error .outOfFuel
  | fuel + 1, node => do
    let cs ←
      match pyIdx choices.length node with
      | some j => (.ok ((choices[j]?).getD []) : Except PErr (List Char))
      | none => .error .indexError
    if cs = [] then
      pure 1
    else
      cs.foldlM (fun t c =>
        if c = term then pure (t + 1)
        else do
          let e ← lookupE E (node, c)
          let sub ← countSufAux E choices term fuel e.dest
          pure (t + sub)) 0

/-- SuffixTree.count_suffixes(term), returning the root's count. -/
def count_suffixes (t : SuffixTree) (term : Char) : Except PErr Int := do
  let choices ← make_choices t.E t.nodes.length
  countSufAux t.E choices term (t.E.length + 2) 0

/-- The loop of SuffixTree.walk: for each symbol look up E[(node, a)] and
move to the edge's destination; a missing key propagates as KeyError. -/
def walkAux (E : ETab) : Int → List Char → Except PErr Int
  | node, [] => .ok node
  | node, a :: rest => do
    let e ← lookupE E (node, a)
    walkAux E e.dest rest

/-- SuffixTree.walk(s), returning the node finally reached. -/
def walk (t : SuffixTree) (s : List Char) : Except PErr Int :=
  walkAux t.E 0 s

/-- The label Text[first..last] (inclusive) of an edge. -/
def labelOf (T : List Char) (e : EdgeRec) : List Char :=
  if 0 ≤ e.first ∧ e.first ≤ e.last then
    (T.drop e.first.toNat).take (e.last - e.first + 1).toNat
  else
    []

/-- Modelled from the spec: the walking procedure of the testable property
of substring completeness, which the source does not implement (its walk
method is the restricted single-symbol walker).  Following u from a node:
look up the edge keyed by the next symbol, compare u against the edge
label symbol by symbol, and descend into the destination when the whole
label is consumed. -/
def canWalkFrom (T : List Char) (E : ETab) : Nat → Int → List Char → Bool
  | 0, _, _ => false
  | _ + 1, _, [] => true
  | fuel + 1, node, a :: rest =>
    match elookup E (node, a) with
    | none => false
    | some e =>
      let lab := labelOf T e
      if (a :: rest).isPrefixOf lab then true
      else if lab ≠ [] ∧ lab.isPrefixOf (a :: rest) then
        canWalkFrom T E fuel e.dest ((a :: rest).drop lab.length)
      else
        false

/-- Walking u from the root, per the substring-completeness property. -/
def canWalk (T : List Char) (E : ETab) (u : List Char) : Bool :=
  canWalkFrom T E (u.length + 1) 0 u

/-- All non-empty substrings of a text (with repetitions). -/
def substrs (t : List Char) : List (List Char) :=
  (List.range t.length).flatMap fun i =>
    (List.range (t.length - i)).map fun k => (t.drop i).take (k + 1)

/-- The number of distinct non-empty substrings of a text. -/
def distinctSubstringCount (t : List Char) : Nat :=
  (substrs t).dedup.length

/-- Reachability of a node from the root along edges of the table. -/
inductive Reach (E : ETab) : Int → Prop where
  | root : Reach E 0
  | step {n : Int} {k : EKey} {e : EdgeRec} :
      Reach E n → k.1 = n → elookup E k = some e → Reach E e.dest

/-- A finite set of nodes containing the root and closed under the edges
of the table. -/
def closedUnder (E : ETab) (S : List Int) : Bool :=
  (0 : Int) ∈ S && E.all fun p => !(p.1.1 ∈ S) || p.2.dest ∈ S

/-- A successful dictionary lookup comes from an entry of the table. -/
theorem elookup_mem {E : ETab} {k : EKey} {e : EdgeRec}
    (he : elookup E k = some e) : (k, e) ∈ E := by
  have hx : E.find? (fun p => p.1 == k) = some (k, e) := by
    cases hfe : E.find? (fun p => p.1 == k) with
    | none => simp [elookup, hfe] at he
    | some pe =>
      have hbeq := List.find?_some hfe
      have h2 : pe.2 = e := by simpa [elookup, hfe] using he
      have hpk : pe.1 = k := by simpa using hbeq
      cases pe with
      | mk a b => simp_all
  exact List.mem_of_find?_eq_some hx

/-- The keys of the edge dictionary are pairwise distinct. -/
def keysNodup (E : ETab) : Prop :=
  (E.map (·.1)).Nodup

/-- The targets of the creation-site (line 88) suffix-link writes, in
write order. -/
def creationTargets (log : List LogEntry) : List Int :=
  (log.filter fun e => e.site == 88).map (·.target)

/-- Dictionary assignment preserves distinctness of the keys. -/
theorem keysNodup_eset {E : ETab} (h : keysNodup E) (k : EKey) (v : EdgeRec) :
    keysNodup (eset E k v) := by
  unfold keysNodup eset at *
  rw [List.map_append, List.nodup_append]
  refine ⟨?_, by simp, ?_⟩
  · exact (List.Sublist.map _ (List.filter_sublist E)).nodup h
  · intro a ha hb
    simp only [List.map_cons, List.map_nil, List.mem_singleton] at hb
    subst hb
    simp only [List.mem_map, List.mem_filter] at ha
    obtain ⟨p, ⟨_, hne⟩, hpk⟩ := ha
    rw [hpk] at hne
    simp at hne

/-- A valid normalized Python index is in range. -/
theorem pyIdx_lt {len : Nat} {i : Int} {j : Nat}
    (h : pyIdx len i = some j) : j < len := by
  unfold pyIdx at h
  by_cases h0 : 0 ≤ i
  · rw [if_pos h0] at h
    by_cases hlt : i < (len : Int)
    · rw [if_pos hlt] at h
      have hj : j = i.toNat := by simpa using h.symm
      subst hj
      omega
    · rw [if_neg hlt] at h
      simp at h
  · rw [if_neg h0] at h
    by_cases hge : 0 ≤ i + (len : Int)
    · rw [if_pos hge] at h
      have hj : j = (i + (len : Int)).toNat := by simpa using h.symm
      subst hj
      omega
    · rw [if_neg hge] at h
      simp at h

/-- A successful Python list write keeps the length. -/
theorem pySetE_ok {l l' : List Int} {i v : Int} (h : pySetE l i v = .ok l') :
    l'.length = l.length := by
  unfold pySetE pySet at h
  cases hj : pyIdx l.length i with
  | none => rw [hj] at h; simp at h
  | some j =>
    rw [hj] at h
    simp at h
    rw [← h]
    exact l.length_set j v

/-- A successful creation-site write has its index in bounds. -/
theorem pySetE_ok_nonneg_lt {l l' : List Int} {i v : Int}
    (hi : 0 ≤ i) (h : pySetE l i v = .ok l') : i < (l.length : Int) := by
  unfold pySetE pySet at h
  cases hj : pyIdx l.length i with
  | none => rw [hj] at h; simp at h
  | some j =>
    unfold pyIdx at hj
    rw [if_pos hi] at hj
    by_cases hlt : i < (l.length : Int)
    · exact hlt
    · rw [if_neg hlt] at hj
      simp at hj

/-- Appending a line-95 write does not change the creation targets. -/
theorem creationTargets_append_95 (log : List LogEntry) (t v : Int) :
    creationTargets (log ++ [⟨95, t, v⟩]) = creationTargets log := by
  simp [creationTargets, List.filter_append]

/-- Appending a line-113 write does not change the creation targets. -/
theorem creationTargets_append_113 (log : List LogEntry) (t v : Int) :
    creationTargets (log ++ [⟨113, t, v⟩]) = creationTargets log := by
  simp [creationTargets, List.filter_append]

/-- Appending a line-88 write appends its target to the creation targets. -/
theorem creationTargets_append_88 (log : List LogEntry) (t v : Int) :
    creationTargets (log ++ [⟨88, t, v⟩]) = creationTargets log ++ [t] := by
  simp [creationTargets, List.filter_append]

/-- The inductive invariant carried through the loops of add: logged
writes target non-root nodes, the creation-site targets are strictly
increasing and bounded by the node counter and the array length, and the
edge-dictionary keys are pairwise distinct. -/
structure LoopInv (s : IterSt) : Prop where
  pos : ∀ e ∈ s.log, 1 ≤ e.target
  chain : (creationTargets s.log).Pairwise (· < ·)
  boundNc : ∀ x ∈ creationTargets s.log, x < s.nc
  boundLen : ∀ x ∈ creationTargets s.log, x < (s.nodes.length : Int)
  ncpos : 1 ≤ s.nc
  keys : keysNodup s.E
  lenpos : 1 ≤ s.nodes.length

/-- The corresponding invariant of a tree between add calls. -/
structure TreeInv (t : SuffixTree) : Prop where
  pos : ∀ e ∈ t.log, 1 ≤ e.target
  chain : (creationTargets t.log).Pairwise (· < ·)
  boundLen : ∀ x ∈ creationTargets t.log, x < (t.nodes.length : Int)
  lenpos : 1 ≤ t.nodes.length
  keys : keysNodup t.E

/-- Reduction of a bind whose first component succeeded. -/
theorem exbind_ok {α β : Type} (a : α) (f : α → Except PErr β) :
    (Except.ok a >>= f) = f a := rfl

/-- Reduction of a bind whose first component failed. -/
theorem exbind_error {α β : Type} (e : PErr) (f : α → Except PErr β) :
    ((Except.error e : Except PErr α) >>= f) = .error e := rfl

/-- A successful non-breaking iterHead either leaves the state parts
unchanged or performs the split: two dictionary assignments, one
creation-site write nodes[nc] = origin with its log record, and the
increment of nc. -/
theorem iterHead_shape {T : List Char} {last : Int} {c : Char} {s : IterSt}
    {r : Int × ETab × List Int × List LogEntry × Int}
    (h : iterHead T last c s = .ok (some r)) :
    r = (s.origin, s.E, s.nodes, s.log, s.nc) ∨
    ∃ k1 v1 k2 v2 nodes1,
      pySetE s.nodes s.nc s.origin = .ok nodes1 ∧
      r = (s.nc, eset (eset s.E k1 v1) k2 v2, nodes1,
           s.log ++ [⟨88, s.nc, s.origin⟩], s.nc + 1) := by
  unfold iterHead at h
  by_cases h1 : s.first > last
  · rw [if_pos h1] at h
    by_cases h2 : ehas s.E (s.origin, c)
    · rw [if_pos h2] at h
      simp at h
    · rw [if_neg h2] at h
      simp only [Except.ok.injEq, Option.some.injEq] at h
      exact Or.inl h.symm
  · rw [if_neg h1] at h
    cases hg1 : getT T s.first with
    | error e => rw [hg1] at h; rw [exbind_error] at h; simp at h
    | ok tf =>
      rw [hg1, exbind_ok] at h
      cases hg2 : lookupE s.E (s.origin, tf) with
      | error e => rw [hg2] at h; rw [exbind_error] at h; simp at h
      | ok e =>
        rw [hg2, exbind_ok] at h
        dsimp only [] at h
        cases hg3 : getT T (e.first + (last - s.first) + 1) with
        | error e2 => rw [hg3] at h; rw [exbind_error] at h; simp at h
        | ok m =>
          rw [hg3, exbind_ok] at h
          by_cases hm : m = c
          · rw [if_pos hm] at h
            simp at h
          · rw [if_neg hm] at h
            cases hg4 : pySetE s.nodes s.nc s.origin with
            | error e2 => rw [hg4] at h; rw [exbind_error] at h; simp at h
            | ok nodes1 =>
              rw [hg4, exbind_ok] at h
              simp only [Except.ok.injEq, Option.some.injEq] at h
              subst h
              refine Or.inr ⟨(s.origin, tf), ⟨e.first, e.first + (last - s.first), s.nc⟩,
                (s.nc, m), ⟨e.first + (last - s.first) + 1, e.last, e.dest⟩, nodes1, ?_, rfl⟩
              first
              | exact hg4
              | rfl

/-- A successful iterTail performs the leaf insertion, the guarded
line-95 suffix-link write with its log record, and the increment of nc;
the fallback and canonization only move the origin and first fields. -/
theorem linkWrite_shape {lp parent : Int} {nodes : List Int}
    {log : List LogEntry} {site : Nat} {nl : List Int × List LogEntry}
    (h : linkWrite lp parent nodes log site = .ok nl) :
    (lp > 0 ∧ ∃ n1, pySetE nodes lp parent = .ok n1 ∧
       nl = (n1, log ++ [⟨site, lp, parent⟩])) ∨
    (¬ lp > 0 ∧ nl = (nodes, log)) := by
  unfold linkWrite at h
  by_cases hlp : lp > 0
  · rw [if_pos hlp] at h
    cases hw : pySetE nodes lp parent with
    | error e => rw [hw] at h; simp at h
    | ok n1 =>
      rw [hw] at h
      simp only [Except.ok.injEq] at h
      exact Or.inl ⟨hlp, n1, rfl, h.symm⟩
  · rw [if_neg hlp] at h
    simp only [Except.ok.injEq] at h
    exact Or.inr ⟨hlp, h.symm⟩

theorem iterTail_shape {cf : Nat} {T : List Char} {Lm1 lci last : Int} {c : Char}
    {lastParent0 origin0 first0 parent : Int} {E0 : ETab} {nodes0 : List Int}
    {log0 : List LogEntry} {nc0 : Int} {s1 : IterSt}
    (h : iterTail cf T Lm1 lci last c lastParent0 origin0 first0 parent
          E0 nodes0 log0 nc0 = .ok s1) :
    ∃ nodes1 log1 origin2 first2,
      s1 = ⟨eset E0 (parent, c) ⟨lci, Lm1, nc0⟩, nodes1, log1, origin2, first2,
            nc0 + 1, parent⟩ ∧
      ((lastParent0 > 0 ∧ pySetE nodes0 lastParent0 parent = .ok nodes1 ∧
          log1 = log0 ++ [⟨95, lastParent0, parent⟩]) ∨
       (¬ lastParent0 > 0 ∧ nodes1 = nodes0 ∧ log1 = log0)) := by
  unfold iterTail at h
  dsimp only [] at h
  cases hlw : linkWrite lastParent0 parent nodes0 log0 95 with
  | error e => rw [hlw] at h; rw [exbind_error] at h; simp at h
  | ok nl =>
    rw [hlw, exbind_ok] at h
    cases hfb : fallback nl.1 origin0 first0 with
    | error e => rw [hfb] at h; rw [exbind_error] at h; simp at h
    | ok of1 =>
      rw [hfb, exbind_ok] at h
      cases hcz : canonize cf T (eset E0 (parent, c) ⟨lci, Lm1, nc0⟩)
          of1.1 of1.2 last with
      | error e => rw [hcz] at h; rw [exbind_error] at h; simp at h
      | ok of2 =>
        rw [hcz, exbind_ok] at h
        simp only [pure, Except.pure, Except.ok.injEq] at h
        rcases linkWrite_shape hlw with ⟨hlp, n1, hw, hnl⟩ | ⟨hlp, hnl⟩
        · exact ⟨nl.1, nl.2, of2.1, of2.2, h.symm,
            Or.inl ⟨hlp, by rw [hnl]; exact hw, by rw [hnl]⟩⟩
        · exact ⟨nl.1, nl.2, of2.1, of2.2, h.symm,
            Or.inr ⟨hlp, by rw [hnl], by rw [hnl]⟩⟩

/-- The invariant survives one non-breaking head-plus-tail iteration. -/
theorem iter_inv {cf : Nat} {T : List Char} {Lm1 lci last : Int} {c : Char}
    {s : IterSt} {r : Int × ETab × List Int × List LogEntry × Int} {s1 : IterSt}
    (inv : LoopInv s)
    (hh : iterHead T last c s = .ok (some r))
    (ht : iterTail cf T Lm1 lci last c s.lastParent s.origin s.first
            r.1 r.2.1 r.2.2.1 r.2.2.2.1 r.2.2.2.2 = .ok s1) :
    LoopInv s1 ∧ s1.nodes.length = s.nodes.length := by
  obtain ⟨nodes1, log1, origin2, first2, hs1, hbranch⟩ := iterTail_shape ht
  have base :
      (∀ e ∈ r.2.2.2.1, 1 ≤ e.target) ∧
      (creationTargets r.2.2.2.1).Pairwise (· < ·) ∧
      (∀ x ∈ creationTargets r.2.2.2.1, x < r.2.2.2.2) ∧
      (∀ x ∈ creationTargets r.2.2.2.1, x < (r.2.2.1.length : Int)) ∧
      1 ≤ r.2.2.2.2 ∧ keysNodup r.2.1 ∧ r.2.2.1.length = s.nodes.length := by
    rcases iterHead_shape hh with hsame | ⟨k1, v1, k2, v2, nodesw, hw, hr⟩
    · rw [hsame]
      exact ⟨inv.pos, inv.chain, inv.boundNc, inv.boundLen, inv.ncpos, inv.keys, rfl⟩
    · rw [hr]
      dsimp only []
      have hlen : nodesw.length = s.nodes.length := pySetE_ok hw
      have hnclt : s.nc < (s.nodes.length : Int) :=
        pySetE_ok_nonneg_lt (le_trans zero_le_one inv.ncpos) hw
      refine ⟨?_, ?_, ?_, ?_, by linarith [inv.ncpos], ?_, hlen⟩
      · intro e he
        rcases List.mem_append.mp he with h1 | h1
        · exact inv.pos e h1
        · simp only [List.mem_singleton] at h1
          rw [h1]
          exact inv.ncpos
      · rw [creationTargets_append_88]
        rw [List.pairwise_append]
        exact ⟨inv.chain, List.pairwise_singleton _ _,
          fun x hx y hy => by
            simp only [List.mem_singleton] at hy
            rw [hy]
            exact inv.boundNc x hx⟩
      · rw [creationTargets_append_88]
        intro x hx
        rcases List.mem_append.mp hx with h1 | h1
        · have := inv.boundNc x h1
          linarith
        · simp only [List.mem_singleton] at h1
          rw [h1]
          linarith
      · rw [creationTargets_append_88]
        intro x hx
        rw [hlen]
        rcases List.mem_append.mp hx with h1 | h1
        · exact inv.boundLen x h1
        · simp only [List.mem_singleton] at h1
          rw [h1]
          exact hnclt
      · exact keysNodup_eset (keysNodup_eset inv.keys _ _) _ _
  obtain ⟨bpos, bchain, bnc, blen, bncpos, bkeys, blenEq⟩ := base
  rcases hbranch with ⟨hlp, hw, hlog⟩ | ⟨hlp, hnodes, hlog⟩
  · have hlen1 : nodes1.length = r.2.2.1.length := pySetE_ok hw
    rw [hs1]
    refine ⟨⟨?_, ?_, ?_, ?_, by dsimp only []; linarith, keysNodup_eset bkeys _ _, ?_⟩, ?_⟩
    · intro e he
      dsimp only [] at he
      rw [hlog] at he
      rcases List.mem_append.mp he with h1 | h1
      · exact bpos e h1
      · simp only [List.mem_singleton] at h1
        rw [h1]
        exact hlp
    · dsimp only []
      rw [hlog, creationTargets_append_95]
      exact bchain
    · dsimp only []
      rw [hlog, creationTargets_append_95]
      intro x hx
      have := bnc x hx
      linarith
    · dsimp only []
      rw [hlog, creationTargets_append_95, hlen1]
      exact blen
    · dsimp only []
      rw [hlen1, blenEq]
      have : 1 ≤ s.nodes.length := inv.lenpos
      omega
    · dsimp only []
      rw [hlen1, blenEq]
  · rw [hs1]
    subst hnodes
    subst hlog
    refine ⟨⟨bpos, bchain, ?_, blen, by dsimp only []; linarith, keysNodup_eset bkeys _ _, ?_⟩, ?_⟩
    · dsimp only []
      intro x hx
      have := bnc x hx
      linarith
    · dsimp only []
      rw [blenEq]
      exact inv.lenpos
    · dsimp only []
      exact blenEq

/-- The invariant survives the inner while loop. -/
theorem innerLoop_inv {cf : Nat} {T : List Char} {Lm1 lci last : Int} {c : Char} :
    ∀ (fuel : Nat) (s s1 : IterSt) (pF : Int), LoopInv s →
      innerLoop cf T Lm1 lci last c fuel s = .ok (s1, pF) →
      LoopInv s1 ∧ s1.nodes.length = s.nodes.length := by
  intro fuel
  induction fuel with
  | zero => intro s s1 pF _ h; simp [innerLoop] at h
  | succ fuel ih =>
    intro s s1 pF inv h
    rw [innerLoop] at h
    cases hh : iterHead T last c s with
    | error e => rw [hh] at h; rw [exbind_error] at h; simp at h
    | ok r0 =>
      rw [hh, exbind_ok] at h
      cases r0 with
      | none =>
        simp only [Except.ok.injEq, Prod.mk.injEq] at h
        rw [← h.1]
        exact ⟨inv, rfl⟩
      | some r =>
        dsimp only [] at h
        cases ht : iterTail cf T Lm1 lci last c s.lastParent s.origin s.first
            r.1 r.2.1 r.2.2.1 r.2.2.2.1 r.2.2.2.2 with
        | error e => rw [ht] at h; rw [exbind_error] at h; simp at h
        | ok sN =>
          rw [ht, exbind_ok] at h
          obtain ⟨invN, hlenN⟩ := iter_inv inv hh ht
          obtain ⟨inv1, hlen1⟩ := ih sN s1 pF invN h
          exact ⟨inv1, by rw [hlen1, hlenN]⟩

/-- The invariant survives the processing of one character. -/
theorem charStep_inv {ilf cf : Nat} {T : List Char} {Lm1 lci : Int} {c : Char}
    {last : Int} {s : IterSt} {r : IterSt × Int}
    (inv : LoopInv s)
    (h : charStep ilf cf T Lm1 lci c last s = .ok r) :
    LoopInv r.1 := by
  unfold charStep at h
  cases hil : innerLoop cf T Lm1 lci last c ilf { s with lastParent := -1 } with
  | error e => rw [hil] at h; rw [exbind_error] at h; simp at h
  | ok rp =>
    rw [hil, exbind_ok] at h
    dsimp only [] at h
    have inv0 : LoopInv { s with lastParent := -1 } :=
      ⟨inv.pos, inv.chain, inv.boundNc, inv.boundLen, inv.ncpos, inv.keys, inv.lenpos⟩
    obtain ⟨inv1, _⟩ := innerLoop_inv ilf _ rp.1 rp.2 inv0 (by rw [hil])
    cases hlw : linkWrite rp.1.lastParent rp.2 rp.1.nodes rp.1.log 113 with
    | error e => rw [hlw] at h; rw [exbind_error] at h; simp at h
    | ok nl =>
      rw [hlw, exbind_ok] at h
      cases hcz : canonize cf T rp.1.E rp.1.origin rp.1.first (last + 1) with
      | error e => rw [hcz] at h; rw [exbind_error] at h; simp at h
      | ok of2 =>
        rw [hcz, exbind_ok] at h
        simp only [pure, Except.pure, Except.ok.injEq] at h
        rw [← h]
        dsimp only []
        rcases linkWrite_shape hlw with ⟨hlp, n1, hw, hnl⟩ | ⟨hlp, hnl⟩
        · have hlen1 : n1.length = rp.1.nodes.length := pySetE_ok hw
          rw [hnl]
          dsimp only []
          refine ⟨?_, ?_, ?_, ?_, inv1.ncpos, inv1.keys, ?_⟩
          · intro e he
            rcases List.mem_append.mp he with h1 | h1
            · exact inv1.pos e h1
            · simp only [List.mem_singleton] at h1
              rw [h1]
              exact hlp
          · rw [creationTargets_append_113]
            exact inv1.chain
          · rw [creationTargets_append_113]
            exact inv1.boundNc
          · rw [creationTargets_append_113, hlen1]
            exact inv1.boundLen
          · rw [hlen1]
            exact inv1.lenpos
        · rw [hnl]
          exact ⟨inv1.pos, inv1.chain, inv1.boundNc, inv1.boundLen, inv1.ncpos,
            inv1.keys, inv1.lenpos⟩

/-- The invariant survives the for-loop over the batch characters. -/
theorem charsLoop_inv {ilf cf : Nat} {T : List Char} {Lm1 : Int} :
    ∀ (idxs : List Nat) (last : Int) (s fin : IterSt), LoopInv s →
      charsLoop ilf cf T Lm1 idxs last s = .ok fin → LoopInv fin := by
  intro idxs
  induction idxs with
  | nil =>
    intro last s fin inv h
    simp only [charsLoop, Except.ok.injEq] at h
    rw [← h]
    exact inv
  | cons lci rest ih =>
    intro last s fin inv h
    rw [charsLoop] at h
    cases hg : getT T (lci : Int) with
    | error e => rw [hg] at h; rw [exbind_error] at h; simp at h
    | ok c =>
      rw [hg, exbind_ok] at h
      cases hcs : charStep ilf cf T Lm1 lci c last s with
      | error e => rw [hcs] at h; rw [exbind_error] at h; simp at h
      | ok r =>
        rw [hcs, exbind_ok] at h
        exact ih r.2 r.1 fin (charStep_inv inv hcs) h

/-- The invariant of a tree is carried over one add call. -/
theorem add_inv {t t' : SuffixTree} {s : List Char}
    (inv : TreeInv t) (h : add t s = .ok t') : TreeInv t' := by
  unfold add addCall at h
  dsimp only [] at h
  cases hcl : charsLoop (fuelFor t s) (fuelFor t s) (t.T ++ s)
      ((((t.T ++ s).length : Int)) - 1) (List.range' t.T.length s.length)
      ((t.T.length : Int) - 1)
      ⟨t.E, t.nodes ++ List.replicate (2 * s.length) (-1), t.log, 0,
        (t.T.length : Int), (t.nodes.length : Int), -1⟩ with
  | error e => rw [hcl] at h; rw [exbind_error] at h; simp at h
  | ok fin =>
    rw [hcl, exbind_ok] at h
    simp only [pure, Except.pure, Except.ok.injEq] at h
    have inv0 : LoopInv ⟨t.E, t.nodes ++ List.replicate (2 * s.length) (-1), t.log, 0,
        (t.T.length : Int), (t.nodes.length : Int), -1⟩ := by
      refine ⟨inv.pos, inv.chain, ?_, ?_, ?_, inv.keys, ?_⟩
      · intro x hx
        exact inv.boundLen x hx
      · intro x hx
        have := inv.boundLen x hx
        simp only [List.length_append, List.length_replicate]
        have h2 : (t.nodes.length : Int) ≤ ((t.nodes.length + 2 * s.length : Nat) : Int) := by
          omega
        linarith
      · show (1 : Int) ≤ (t.nodes.length : Int)
        have := inv.lenpos
        omega
      · show 1 ≤ (t.nodes ++ List.replicate (2 * s.length) (-1 : Int)).length
        simp only [List.length_append, List.length_replicate]
        have := inv.lenpos
        omega
    have invF := charsLoop_inv _ _ _ _ inv0 hcl
    rw [← h]
    exact ⟨invF.pos, invF.chain, invF.boundLen, invF.lenpos, invF.keys⟩

/-- The invariant holds for the empty tree. -/
theorem treeInv_new : TreeInv SuffixTree.new := by
  refine ⟨?_, ?_, ?_, ?_, ?_⟩ <;> simp [SuffixTree.new, creationTargets, keysNodup]

/-- The invariant holds for every tree built by a sequence of add calls. -/
theorem addMany_inv {bs : List (List Char)} {t : SuffixTree}
    (h : addMany bs = .ok t) : TreeInv t := by
  unfold addMany at h
  have main : ∀ (l : List (List Char)) (t0 t1 : SuffixTree), TreeInv t0 →
      l.foldlM add t0 = .ok t1 → TreeInv t1 := by
    intro l
    induction l with
    | nil =>
      intro t0 t1 inv hh
      simp only [List.foldlM_nil, pure, Except.pure, Except.ok.injEq] at hh
      rw [← hh]
      exact inv
    | cons b rest ih =>
      intro t0 t1 inv hh
      rw [List.foldlM_cons] at hh
      cases ha : add t0 b with
      | error e => rw [ha] at hh; rw [exbind_error] at hh; simp at hh
      | ok t2 =>
        rw [ha, exbind_ok] at hh
        exact ih t2 t1 (add_inv inv ha) hh
  exact main bs SuffixTree.new t treeInv_new h

/-- The first symbols of the outgoing edges of a node, in table order. -/
def firstSymbols (E : ETab) (n : Int) : List Char :=
  (E.filter fun p => p.1.1 == n).map fun p => p.1.2

/-- The accumulating pass of make_choices, characterized slot by slot
when every key origin is a valid non-negative node index. -/
theorem makeChoices_fold {numNodes : Nat} :
    ∀ (E : ETab) (acc res : List (List Char)),
      acc.length = numNodes →
      (∀ p ∈ E, 0 ≤ p.1.1 ∧ p.1.1 < (numNodes : Int)) →
      E.foldlM (choiceStep numNodes) acc = .ok res →
      res.length = numNodes ∧
      ∀ j : Nat, j < numNodes →
        res[j]? = some (((acc[j]?).getD []) ++ firstSymbols E (j : Int)) := by
  intro E
  induction E with
  | nil =>
    intro acc res hlen _ h
    simp only [List.foldlM_nil, pure, Except.pure, Except.ok.injEq] at h
    subst h
    refine ⟨hlen, fun j hj => ?_⟩
    have : acc[j]? = some acc[j] := List.getElem?_eq_getElem (by omega)
    simp [this, firstSymbols]
  | cons p E' ih =>
    intro acc res hlen hrange h
    rw [List.foldlM_cons] at h
    have hp := hrange p (List.mem_cons_self p E')
    have hidx : pyIdx numNodes p.1.1 = some p.1.1.toNat := by
      unfold pyIdx
      rw [if_pos hp.1, if_pos (by exact_mod_cast hp.2)]
    have hstep : choiceStep numNodes acc p
        = .ok (acc.set p.1.1.toNat (((acc[p.1.1.toNat]?).getD []) ++ [p.1.2])) := by
      unfold choiceStep
      rw [hidx]
    rw [hstep, exbind_ok] at h
    have hlen' : (acc.set p.1.1.toNat (((acc[p.1.1.toNat]?).getD []) ++ [p.1.2])).length
        = numNodes := by
      rw [List.length_set]
      exact hlen
    obtain ⟨hr1, hr2⟩ := ih _ res hlen'
      (fun q hq => hrange q (List.mem_cons_of_mem p hq)) h
    refine ⟨hr1, fun j hj => ?_⟩
    have hnat : p.1.1.toNat < numNodes := by omega
    by_cases hji : j = p.1.1.toNat
    · rw [hr2 j hj]
      have hset : (acc.set p.1.1.toNat (((acc[p.1.1.toNat]?).getD []) ++ [p.1.2]))[j]?
          = some (((acc[j]?).getD []) ++ [p.1.2]) := by
        rw [hji, List.getElem?_set_self (by omega)]
      rw [hset]
      have hfs : firstSymbols (p :: E') (j : Int) = p.1.2 :: firstSymbols E' (j : Int) := by
        unfold firstSymbols
        rw [List.filter_cons]
        have hbeq : (p.1.1 == (j : Int)) = true := by
          simp only [beq_iff_eq]
          omega
        rw [if_pos hbeq]
        simp
      rw [hfs]
      simp
    · rw [hr2 j hj]
      have hset : (acc.set p.1.1.toNat (((acc[p.1.1.toNat]?).getD []) ++ [p.1.2]))[j]?
          = acc[j]? := by
        rw [List.getElem?_set_ne (by omega)]
      rw [hset]
      have hfs : firstSymbols (p :: E') (j : Int) = firstSymbols E' (j : Int) := by
        unfold firstSymbols
        rw [List.filter_cons]
        have : (p.1.1 == (j : Int)) = false := by
          simp only [beq_eq_false_iff_ne, ne_eq]
          intro hc
          apply hji
          omega
        rw [if_neg (by simp [this])]
      rw [hfs]

/-- The first symbols of a node have no repetition when the dictionary
keys are pairwise distinct. -/
theorem firstSymbols_nodup {E : ETab} (hkeys : keysNodup E) (n : Int) :
    (firstSymbols E n).Nodup := by
  unfold firstSymbols
  unfold keysNodup at hkeys
  induction E with
  | nil => simp
  | cons p E' ih =>
    rw [List.map_cons] at hkeys
    have hk1 := (List.nodup_cons.mp hkeys).1
    have hk2 := (List.nodup_cons.mp hkeys).2
    rw [List.filter_cons]
    by_cases hc : (p.1.1 == n) = true
    · rw [if_pos hc]
      rw [List.map_cons]
      rw [List.nodup_cons]
      refine ⟨?_, ih hk2⟩
      intro hmem
      simp only [List.mem_map, List.mem_filter] at hmem
      obtain ⟨q, ⟨hqmem, hqn⟩, hqc⟩ := hmem
      apply hk1
      rw [List.mem_map]
      refine ⟨q, hqmem, ?_⟩
      have h1 : q.1.1 = n := by simpa using hqn
      have h2 : p.1.1 = n := by simpa using hc
      have h3 : q.1.2 = p.1.2 := hqc
      exact Prod.ext_iff.mpr ⟨by rw [h1, h2], h3⟩
    · rw [if_neg (by simpa using hc)]
      exact ih hk2

/-- Membership in the first symbols is the dictionary membership test. -/
theorem firstSymbols_mem {E : ETab} (n : Int) (c : Char) :
    c ∈ firstSymbols E n ↔ ehas E (n, c) = true := by
  unfold firstSymbols ehas elookup
  rw [Option.isSome_map']
  rw [List.find?_isSome]
  constructor
  · intro h
    simp only [List.mem_map, List.mem_filter] at h
    obtain ⟨q, ⟨hqmem, hqn⟩, hqc⟩ := h
    refine ⟨q, hqmem, ?_⟩
    have h1 : q.1.1 = n := by simpa using hqn
    have hk : q.1 = (n, c) := Prod.ext_iff.mpr ⟨h1, hqc⟩
    simp [hk]
  · intro h
    obtain ⟨q, hqmem, hq⟩ := h
    have hqk : q.1 = (n, c) := by simpa using hq
    simp only [List.mem_map, List.mem_filter]
    exact ⟨q, ⟨hqmem, by simp [hqk]⟩, by simp [hqk]⟩

/-- A valid nonnegative Python index is an in-range position. -/
theorem pyIdx_nonneg_lt {len : Nat} {i : Int} {j : Nat}
    (hi : 0 ≤ i) (h : pyIdx len i = some j) : i < (len : Int) ∧ j = i.toNat := by
  unfold pyIdx at h
  rw [if_pos hi] at h
  by_cases hlt : i < (len : Int)
  · rw [if_pos hlt] at h
    exact ⟨hlt, by simpa using h.symm⟩
  · rw [if_neg hlt] at h
    simp at h

/-- Every node reachable from the root lies in any closed set. -/
theorem reach_mem_of_closed {E : ETab} {S : List Int}
    (hS : closedUnder E S = true) {n : Int} (h : Reach E n) : n ∈ S := by
  simp only [closedUnder, Bool.and_eq_true, List.all_eq_true, decide_eq_true_eq] at hS
  obtain ⟨h0, hall⟩ := hS
  induction h with
  | root => simpa using h0
  | step hr hk he ih =>
    rename_i n' k e
    have hmem : (k, e) ∈ E := elookup_mem he
    have hcl := hall (k, e) hmem
    simp only [Bool.or_eq_true, Bool.not_eq_true', decide_eq_true_eq,
      decide_eq_false_iff_not] at hcl
    rcases hcl with hnot | hyes
    · exact absurd (hk ▸ ih) hnot
    · exact hyes

/-- Characterization of make_choices on a table whose key origins are
valid non-negative node indices: slot j holds the sorted first symbols
of node j. -/
theorem make_choices_spec {E : ETab} {numNodes : Nat} {cs : List (List Char)}
    (hrange : ∀ p ∈ E, 0 ≤ p.1.1 ∧ p.1.1 < (numNodes : Int))
    (h : make_choices E numNodes = .ok cs) :
    cs.length = numNodes ∧
    ∀ j : Nat, j < numNodes →
      cs[j]? = some ((firstSymbols E (j : Int)).insertionSort (· ≤ ·)) := by
  unfold make_choices at h
  cases hf : E.foldlM (choiceStep numNodes) (List.replicate numNodes ([] : List Char)) with
  | error e => rw [hf] at h; rw [exbind_error] at h; simp at h
  | ok filled =>
    rw [hf, exbind_ok] at h
    simp only [pure, Except.pure, Except.ok.injEq] at h
    obtain ⟨hl, hslots⟩ := makeChoices_fold E (List.replicate numNodes ([] : List Char))
      filled (List.length_replicate numNodes []) hrange hf
    subst h
    refine ⟨by simpa using hl, fun j hj => ?_⟩
    rw [List.getElem?_map, hslots j hj]
    have hrep : (List.replicate numNodes ([] : List Char))[j]? = some [] :=
      List.getElem?_replicate_of_lt hj
    rw [hrep]
    simp

/-- The edge table with every label truncated to its first position:
same keys, same destinations, labels of length one. -/
def truncateLabels (E : ETab) : ETab :=
  E.map fun p => (p.1, ⟨p.2.first, p.2.first, p.2.dest⟩)

/-- Lookup commutes with label truncation. -/
theorem elookup_truncateLabels (E : ETab) (k : EKey) :
    elookup (truncateLabels E) k
      = (elookup E k).map fun e => ⟨e.first, e.first, e.dest⟩ := by
  unfold elookup truncateLabels
  induction E with
  | nil => rfl
  | cons p rest ih =>
    rw [List.map_cons]
    by_cases h : p.1 = k
    · simp [List.find?_cons, h]
    · simp only [List.find?_cons]
      have hb : (p.1 == k) = false := by simpa using h
      simp only [hb]
      exact ih

/-- The walk of the source never examines anything but the stored key
and the destination: truncating every edge label to a single position
leaves the outcome of walk unchanged. -/
theorem walkAux_truncateLabels (E : ETab) : ∀ (s : List Char) (node : Int),
    walkAux (truncateLabels E) node s = walkAux E node s := by
  intro s
  induction s with
  | nil => intro node; rfl
  | cons a rest ih =>
    intro node
    rw [walkAux, walkAux]
    unfold lookupE
    rw [elookup_truncateLabels]
    cases h : elookup E (node, a) with
    | none => rfl
    | some e =>
      simp only [Option.map_some']
      rw [exbind_ok, exbind_ok]
      exact ih e.dest

/-- C1: the claim that after any sequence of add calls every substring
of the full appended text can be walked from the root fails on the code:
after add("a"); add("a") the text is "aa", its substring "aa" occurs,
yet walking "aa" from the root via the Edge Table dies on a missing key,
because each add call resets the active point and freezes old leaf ends,
losing the pending extension. -/
theorem C1_missing_substring_after_second_add :
    ∃ t : SuffixTree, addMany [['a'], ['a']] = .ok t ∧
      ['a', 'a'] ∈ substrs t.T ∧ canWalk t.T t.E ['a', 'a'] = false := by
  refine ⟨(addMany [['a'], ['a']]).toOption.getD SuffixTree.new, ?_, ?_, ?_⟩
  · rfl
  · decide
  · decide

/-- C2: the claim that count_substrings at the root equals the number of
distinct non-empty substrings of the un-terminated text fails on the
code: for the text "ab" with terminator appended in one add call, the
root count is 5 while the true number of distinct non-empty substrings
of "ab" is 3 — the code only skips edges whose first symbol is the
terminator, so terminator-ended labels such as b-terminator still count. -/
theorem C2_count_substrings_overcount :
    ∃ t : SuffixTree, addMany [['a', 'b', '$']] = .ok t ∧
      count_substrings t '$' = .ok 5 ∧ distinctSubstringCount ['a', 'b'] = 3 := by
  refine ⟨(addMany [['a', 'b', '$']]).toOption.getD SuffixTree.new, ?_, ?_, ?_⟩
  · rfl
  · rfl
  · decide

/-- C3: the claim that building in one add call and building over a
partition give structurally equivalent trees fails on the code: for the
text "aab", the one-call tree walks the substring "ab" from the root,
the tree built as add("aa"); add("b") does not. -/
theorem C3_partition_not_equivalent :
    ∃ t1 t2 : SuffixTree, addMany [['a', 'a', 'b']] = .ok t1 ∧
      addMany [['a', 'a'], ['b']] = .ok t2 ∧ t1.T = t2.T ∧
      canWalk t1.T t1.E ['a', 'b'] = true ∧
      canWalk t2.T t2.E ['a', 'b'] = false := by
  refine ⟨(addMany [['a', 'a', 'b']]).toOption.getD SuffixTree.new,
    (addMany [['a', 'a'], ['b']]).toOption.getD SuffixTree.new, ?_, ?_, ?_, ?_, ?_⟩
  · rfl
  · rfl
  · decide
  · decide
  · decide

/-- C4: the claim that after full construction with a terminator every
non-root node's suffix link points to the node for its string minus the
first symbol fails on the code: after add("a"); add("aaa"); add("aa$")
the node 9 is reached from the root by two single-symbol edges labelled
a, so it represents "aa", but its suffix link reads 11 and node 11 is
not reachable from the root at all, so it represents no string, let
alone "a". -/
theorem C4_suffix_link_to_unreachable_node :
    ∃ (t : SuffixTree) (e1 e2 : EdgeRec),
      addMany [['a'], ['a', 'a', 'a'], ['a', 'a', '$']] = .ok t ∧
      elookup t.E (0, 'a') = some e1 ∧ labelOf t.T e1 = ['a'] ∧ e1.dest = 1 ∧
      elookup t.E (1, 'a') = some e2 ∧ labelOf t.T e2 = ['a'] ∧ e2.dest = 9 ∧
      pyGet t.nodes 9 = some 11 ∧
      ¬ Reach t.E 11 := by
  refine ⟨(addMany [['a'], ['a', 'a', 'a'], ['a', 'a', '$']]).toOption.getD SuffixTree.new,
    ⟨0, 0, 1⟩, ⟨2, 2, 9⟩, ?_, ?_, ?_, ?_, ?_, ?_, ?_, ?_, ?_⟩
  · rfl
  · decide
  · decide
  · decide
  · decide
  · decide
  · decide
  · decide
  · intro h
    have hmem := reach_mem_of_closed
      (S := [0, 1, 9, 3, 10]) (by decide) h
    simp at hmem

/-- C6 (amended): suffix-link writes are not write-once — the entry of a
node is initialized at its creation (line 88) and may later be written
again with a different value (lines 95 and 113).  What does hold is that
every write targets a non-root node (index at least 1) and that the
creation-site initialization happens at most once per node: its targets
are strictly increasing over the whole call sequence. -/
theorem C6_link_write_targets :
    ∀ (bs : List (List Char)) (t : SuffixTree), addMany bs = .ok t →
      (∀ e ∈ t.log, 1 ≤ e.target) ∧
      (creationTargets t.log).Pairwise (· < ·) := by
  intro bs t h
  have inv := addMany_inv h
  exact ⟨inv.pos, inv.chain⟩

/-- Witness for C6_link_write_targets at the concrete run add("aab"). -/
theorem C6_link_write_targets_witness :
    (∀ e ∈ ((addMany [['a', 'a', 'b']]).toOption.getD SuffixTree.new).log,
        1 ≤ e.target) ∧
    (creationTargets ((addMany [['a', 'a', 'b']]).toOption.getD
        SuffixTree.new).log).Pairwise (· < ·) :=
  C6_link_write_targets [['a', 'a', 'b']]
    ((addMany [['a', 'a', 'b']]).toOption.getD SuffixTree.new) rfl

/-- C6 counterexample: in the single call add("aaab"), node 2's
suffix-link entry is assigned the non-sentinel value 0 by the
creation-site write (log position 0) and is later written again with the
different value 4 (log position 2), refuting set-at-most-once. -/
theorem C6_rewrite_counterexample :
    ∃ t : SuffixTree, addMany [['a', 'a', 'a', 'b']] = .ok t ∧
      t.log[0]? = some ⟨88, 2, 0⟩ ∧ t.log[2]? = some ⟨95, 2, 4⟩ ∧
      (0 : Int) ≠ -1 ∧ (4 : Int) ≠ 0 := by
  refine ⟨(addMany [['a', 'a', 'a', 'b']]).toOption.getD SuffixTree.new,
    ?_, ?_, ?_, ?_, ?_⟩
  · rfl
  · decide
  · decide
  · decide
  · decide

/-- C7: the claim that count_suffixes at the root is n + 1 (or n) under
one convention holding for all terminator-ended texts fails on the code:
the single-call text "ab" with terminator gives 3 = n + 1, but the text
"aab" with terminator built as add("aa"); add("b$") gives 3 as well,
which is neither 3 + 1 nor consistent with the first run's convention
(the suffix "ab$" was lost by the multi-call defect). -/
theorem C7_count_suffixes_convention_broken :
    ∃ t1 t2 : SuffixTree, addMany [['a', 'b', '$']] = .ok t1 ∧
      addMany [['a', 'a'], ['b', '$']] = .ok t2 ∧
      count_suffixes t1 '$' = .ok 3 ∧
      count_suffixes t2 '$' = .ok 3 ∧
      t1.T.length = 3 ∧ t2.T.length = 4 := by
  refine ⟨(addMany [['a', 'b', '$']]).toOption.getD SuffixTree.new,
    (addMany [['a', 'a'], ['b', '$']]).toOption.getD SuffixTree.new,
    ?_, ?_, ?_, ?_, ?_, ?_⟩
  · rfl
  · rfl
  · rfl
  · rfl
  · decide
  · decide

/-- C8 (amended): walk follows, for each path symbol, the edge keyed by
the pair of the current node and that symbol and jumps to the edge's
destination without ever examining the edge label, so multi-symbol edges
are crossed silently with no assertion (truncating all labels changes
nothing); a symbol with no matching edge makes walk fail with the
uncaught KeyError of the dictionary access, not with a designed
no-such-path result. -/
theorem C8_walk_behaviour :
    (∀ (E : ETab) (s : List Char) (node : Int),
        walkAux (truncateLabels E) node s = walkAux E node s) ∧
    (∀ (E : ETab) (node : Int) (a : Char) (s : List Char),
        elookup E (node, a) = none →
        walkAux E node (a :: s) = .error .keyError) := by
  constructor
  · exact fun E s node => walkAux_truncateLabels E s node
  · intro E node a s h
    rw [walkAux]
    unfold lookupE
    rw [h]
    rfl

/-- Witness for C8_walk_behaviour on a one-edge table. -/
theorem C8_walk_behaviour_witness :
    walkAux (truncateLabels [((0, 'a'), ⟨0, 1, 1⟩)]) 0 ['a']
      = walkAux [((0, 'a'), ⟨0, 1, 1⟩)] 0 ['a'] ∧
    walkAux ([((0, 'a'), ⟨0, 1, 1⟩)] : ETab) 0 ['b', 'a'] = .error .keyError :=
  ⟨C8_walk_behaviour.1 [((0, 'a'), ⟨0, 1, 1⟩)] ['a'] 0,
    C8_walk_behaviour.2 [((0, 'a'), ⟨0, 1, 1⟩)] 0 'b' ['a'] (by decide)⟩

/-- C8 counterexample: on the tree of the single call add("aab"), the
edge from node 2 keyed by a carries the two-symbol label "ab", and walk
given "aa" crosses it silently and returns node 1 — neither a
no-such-path report nor an assertion, refuting the claimed failure
reporting for paths that cross a multi-symbol edge. -/
theorem C8_silent_crossing_counterexample :
    ∃ (t : SuffixTree) (e : EdgeRec), addMany [['a', 'a', 'b']] = .ok t ∧
      elookup t.E (2, 'a') = some e ∧ 2 ≤ (labelOf t.T e).length ∧
      walk t ['a', 'a'] = .ok 1 := by
  refine ⟨(addMany [['a', 'a', 'b']]).toOption.getD SuffixTree.new,
    ⟨1, 2, 1⟩, ?_, ?_, ?_, ?_⟩
  · rfl
  · decide
  · decide
  · rfl

/-- C9 (amended): on every tree built by add calls whose edge keys all
carry a valid non-negative origin index, make_choices returns for each
node the sorted duplicate-free list of the first symbols of exactly its
outgoing edges.  The origin-range condition is needed because corrupted
multi-call trees contain keys with origin -1, which Python's negative
indexing folds into the last node's slot. -/
theorem C9_choices_sorted_nodup :
    ∀ (bs : List (List Char)) (t : SuffixTree) (cs : List (List Char)) (n : Nat),
      addMany bs = .ok t →
      (∀ p ∈ t.E, 0 ≤ p.1.1 ∧ p.1.1 < (t.nodes.length : Int)) →
      make_choices t.E t.nodes.length = .ok cs →
      n < t.nodes.length →
      ∃ l : List Char, cs[n]? = some l ∧
        l.Pairwise (fun a b : Char => a ≤ b) ∧ l.Nodup ∧
        ∀ c : Char, c ∈ l ↔ ehas t.E ((n : Int), c) = true := by
  intro bs t cs n hbuild hrange hmc hn
  have hkeys : keysNodup t.E := (addMany_inv hbuild).keys
  obtain ⟨hlen, hslots⟩ := make_choices_spec hrange hmc
  refine ⟨(firstSymbols t.E (n : Int)).insertionSort (· ≤ ·), hslots n hn, ?_, ?_, ?_⟩
  · exact List.sorted_insertionSort (· ≤ ·) (firstSymbols t.E (n : Int))
  · exact (List.perm_insertionSort (· ≤ ·) (firstSymbols t.E (n : Int))).nodup_iff.mpr
      (firstSymbols_nodup hkeys (n : Int))
  · intro c
    rw [(List.perm_insertionSort (· ≤ ·) (firstSymbols t.E (n : Int))).mem_iff]
    exact firstSymbols_mem (n : Int) c

/-- Witness for C9_choices_sorted_nodup on the tree of add("aab") at the
root. -/
theorem C9_choices_sorted_nodup_witness :
    ∃ l : List Char,
      ((make_choices ((addMany [['a', 'a', 'b']]).toOption.getD SuffixTree.new).E
          ((addMany [['a', 'a', 'b']]).toOption.getD SuffixTree.new).nodes.length
        ).toOption.getD [])[0]? = some l ∧
      l.Pairwise (fun a b : Char => a ≤ b) ∧ l.Nodup ∧
      ∀ c : Char, c ∈ l ↔
        ehas ((addMany [['a', 'a', 'b']]).toOption.getD SuffixTree.new).E
          ((0 : Int), c) = true :=
  C9_choices_sorted_nodup [['a', 'a', 'b']]
    ((addMany [['a', 'a', 'b']]).toOption.getD SuffixTree.new)
    ((make_choices ((addMany [['a', 'a', 'b']]).toOption.getD SuffixTree.new).E
        ((addMany [['a', 'a', 'b']]).toOption.getD SuffixTree.new).nodes.length
      ).toOption.getD [])
    0 rfl (by decide) rfl (by decide)

/-- C9 counterexample: the tree of add("a"); add("aaa"); add("aab") has
the corrupted key (-1, a); Python's negative indexing folds it into the
last slot 14, so make_choices reports the symbol a for node 14, although
node 14 has no outgoing edge at all. -/
theorem C9_wraparound_counterexample :
    ∃ (t : SuffixTree) (cs : List (List Char)),
      addMany [['a'], ['a', 'a', 'a'], ['a', 'a', 'b']] = .ok t ∧
      t.nodes.length = 15 ∧
      make_choices t.E t.nodes.length = .ok cs ∧
      cs[14]? = some ['a'] ∧
      firstSymbols t.E (14 : Int) = [] := by
  refine ⟨(addMany [['a'], ['a', 'a', 'a'], ['a', 'a', 'b']]).toOption.getD SuffixTree.new,
    (make_choices ((addMany [['a'], ['a', 'a', 'a'], ['a', 'a', 'b']]).toOption.getD
        SuffixTree.new).E 15).toOption.getD [], ?_, ?_, ?_, ?_, ?_⟩
  · rfl
  · decide
  · rfl
  · decide
  · decide

/-- C10: on a freshly created tree, with the single root slot and no
edges, count_suffixes returns 1 for every terminator symbol: the root's
empty choice list makes the recursion count it as a leaf. -/
theorem C10_fresh_tree_count_suffixes_one :
    ∀ term : Char, count_suffixes SuffixTree.new term = .ok 1 :=
  fun _ => rfl

end SuffixTreePy
